import Mathlib

/-! Verification of the sentiment-signal computation engine
(`src/pages/api/signal.ts`) against its natural-language specification.

Numbers are modelled as exact rationals (`ℚ`); timestamps as integer
milliseconds since the Unix epoch (`ℤ`).  `Math.round` in JavaScript is
`⌊x + 1/2⌋`, which coincides with Mathlib's `round` on `ℚ`.
Strings are modelled as Lean `String`s, with the link-normalisation
functions working on the underlying `List Char`.
-/

namespace Signal

/-- The three sentiment classes (`type Sentiment`). -/
inductive Sentiment where
  | positive
  | negative
  | neutral
deriving DecidableEq, Repr

/-- Source type `SentimentScore`: a label together with a signed score. -/
structure SentimentScore where
  label : Sentiment
  score : ℚ
deriving DecidableEq, Repr

/-- Source helper `clamp(min, max, value) = Math.min(max, Math.max(min, value))`. -/
def clamp (lo hi value : ℚ) : ℚ :=
  min hi (max lo value)

/-- JavaScript `Math.sign` on rationals: `-1`, `0`, or `1`. -/
def mathSign (x : ℚ) : ℚ :=
  if x > 0 then 1 else if x < 0 then -1 else 0

/-- JavaScript `a || b` on numbers: `b` when `a` is `0`, else `a`. -/
def jsOrNum (a b : ℚ) : ℚ :=
  if a = 0 then b else a

/-- Source function `linearTimeDecay(minutesAgo, windowMinutes)`:
`safeWindow = max(windowMinutes, 1)`, clamp `minutesAgo` to `[0, safeWindow]`,
`decay = 1 - (clamped / safeWindow) * 0.3`, result clamped to `[0.7, 1]`. -/
def linearTimeDecay (minutesAgo windowMinutes : ℚ) : ℚ :=
  let safeWindow := max windowMinutes 1
  let clamped := clamp 0 safeWindow minutesAgo
  let decay := 1 - (clamped / safeWindow) * (3/10)
  clamp (7/10) 1 decay

/-- Source function `decayWeight`: `0` outside `[0, windowMinutes]`, else `linearTimeDecay`.
The source computes `minutesAgo` from the item date and `now`; we take
`minutesAgo` directly. -/
def decayWeight (minutesAgo windowMinutes : ℚ) : ℚ :=
  if minutesAgo < 0 ∨ minutesAgo > windowMinutes then 0
  else linearTimeDecay minutesAgo windowMinutes

/-- Source function `labelFromScore`: positive / negative / neutral by the sign of the score. -/
def labelFromScore (score : ℚ) : Sentiment :=
  if score > 0 then .positive
  else if score < 0 then .negative
  else .neutral

/-- The directional tail of `scoreSentimentModel` (lines 496–504): from
`diff = probs.positive - probs.negative` produce the signed score with
magnitude `max(0.5, 5·|diff|)`, neutral when `diff = 0`. -/
def modelDirectional (diff : ℚ) : SentimentScore :=
  if diff > 0 then ⟨.positive, max (1/2) (diff * 5)⟩
  else if diff < 0 then ⟨.negative, -(max (1/2) (|diff| * 5))⟩
  else ⟨.neutral, 0⟩

/-- The pure core of `scoreSentimentModel` (lines 485–504), taking the
per-class max probabilities already aggregated from the classifier output.
Mirrors the nested `if` structure of the source, including the fall-through
when neither inner guard fires. -/
def scoreSentimentModelProbs (pos neg neu : ℚ) : SentimentScore :=
  let diff := pos - neg
  let strongest := max pos (max neg neu)
  if strongest < 2/5 ∨ |diff| < 1/20 then
    if neu ≥ 2/5 ∧ neu ≥ pos ∧ neu ≥ neg then ⟨.neutral, 0⟩
    else if |diff| < 1/20 then ⟨.neutral, 0⟩
    else modelDirectional diff
  else modelDirectional diff

/-- Source function `combineSentiments(modelScore, lexiconScore)`. -/
def combineSentiments (modelScore : Option SentimentScore)
    (lexiconScore : SentimentScore) : SentimentScore :=
  match modelScore with
  | none => lexiconScore
  | some m =>
    if m.label = .neutral ∧ lexiconScore.score ≠ 0 then lexiconScore
    else if lexiconScore.score = 0 then m
    else if mathSign m.score = mathSign lexiconScore.score then
      let combinedMagnitude := max |m.score| |lexiconScore.score|
      let combinedScore := mathSign (jsOrNum m.score lexiconScore.score) * combinedMagnitude
      ⟨labelFromScore combinedScore, combinedScore⟩
    else if |m.score| ≥ |lexiconScore.score| then m
    else lexiconScore

/-- The recommendation labels. -/
inductive Recommendation where
  | LONG
  | SHORT
  | NEUTRAL
deriving DecidableEq, Repr

/-- Per-class item counts of the response. -/
structure Counts where
  positive : ℕ
  negative : ℕ
  neutral : ℕ
deriving DecidableEq, Repr

/-- Per-class running weight sums of the response. -/
structure Weights where
  posW : ℚ
  negW : ℚ
  neuW : ℚ
deriving DecidableEq, Repr

/-- One output item (`interface SignalItem`).  The publish date only matters
through `minutesAgo`, which is how we carry it. -/
structure SignalItem where
  title : String
  link : String
  minutesAgo : ℚ
  source : String
  sentiment : Sentiment
  score : ℚ
  weight : ℚ
deriving DecidableEq, Repr

/-- The response payload (`interface SignalResponse`).  `generatedAt` is the
ISO clock string, opaque to the properties we prove. -/
structure SignalResponse where
  windowMinutes : ℤ
  timezoneOffsetMinutes : ℤ
  generatedAt : String
  counts : Counts
  weights : Weights
  longPct : ℤ
  shortPct : ℤ
  recommendation : Recommendation
  items : List SignalItem
deriving DecidableEq, Repr

/-- Source function `buildResponse` (lines 603–646).  `generatedAt` comes from the clock and
is passed in. -/
def buildResponse (windowMinutes timezoneOffsetMinutes : ℤ)
    (generatedAt : String) (items : List SignalItem)
    (posW negW neuW : ℚ) (posCount negCount neuCount : ℕ) : SignalResponse :=
  let totalWeight := posW + negW + neuW
  let directionalWeight := posW + negW
  let longPct : ℤ :=
    if directionalWeight > 0 then round ((posW / directionalWeight) * 100)
    else if totalWeight > 0 then 0 else 0
  let shortPct : ℤ :=
    if directionalWeight > 0 then 100 - longPct
    else if totalWeight > 0 then 0 else 0
  let recommendation : Recommendation :=
    if posW > negW * (21/20) then .LONG
    else if negW > posW * (21/20) then .SHORT
    else .NEUTRAL
  { windowMinutes := windowMinutes
    timezoneOffsetMinutes := timezoneOffsetMinutes
    generatedAt := generatedAt
    counts := ⟨posCount, negCount, neuCount⟩
    weights := ⟨posW, negW, neuW⟩
    longPct := longPct
    shortPct := shortPct
    recommendation := recommendation
    items := items }

/-! Link normalisation (`normalizeLink`, lines 560–575).

`normalizeLink` relies on the WHATWG `URL` platform class.  We model the
aspects it uses on the character list of the string: a URL splits at the
first `#` into a pre-fragment part and fragment, the pre-fragment part
splits at the first `?` into base and query, the query is a list of
`&`-separated `key=value` pairs (empty segments dropped, as
`URLSearchParams` does), and parsing succeeds when the base contains
`://`.  Serialisation omits `?` for an empty parameter list and `#` for
an empty fragment, as the `URL` class does after `u.search`/`u.hash` are
assigned. -/

/-- Split a character list at the first occurrence of `c`; the second
component is `none` when `c` does not occur. -/
def splitOnFirstChar (c : Char) : List Char → List Char × Option (List Char)
  | [] => ([], none)
  | a :: rest =>
    if a = c then ([], some rest)
    else
      let p := splitOnFirstChar c rest
      (a :: p.1, p.2)

/-- Split a character list at every occurrence of `c` (always nonempty). -/
def splitAllChar (c : Char) : List Char → List (List Char)
  | [] => [[]]
  | a :: rest =>
    if a = c then [] :: splitAllChar c rest
    else
      match splitAllChar c rest with
      | [] => [[a]]
      | s :: ss => (a :: s) :: ss

/-- Join segments with the separator `c` between them. -/
def joinSep (c : Char) : List (List Char) → List Char
  | [] => []
  | [s] => s
  | s :: rest => s ++ c :: joinSep c rest

/-- Parse one `key=value` query pair: split the segment at the first `=`
(missing `=` gives an empty value), as `URLSearchParams` parsing does. -/
def parsePair (seg : List Char) : List Char × List Char :=
  let p := splitOnFirstChar '=' seg
  (p.1, p.2.getD [])

/-- Parse a query string into its ordered pair list, dropping empty
segments. -/
def parseQuery (q : List Char) : List (List Char × List Char) :=
  (splitAllChar '&' q).filterMap fun seg =>
    if seg = [] then none else some (parsePair seg)

/-- Serialise one pair as `key=value` (`URLSearchParams.toString` always
writes the `=`). -/
def renderPair (kv : List Char × List Char) : List Char :=
  kv.1 ++ '=' :: kv.2

/-- Serialise an ordered pair list as an `&`-joined query string. -/
def renderQuery (pairs : List (List Char × List Char)) : List Char :=
  joinSep '&' (pairs.map renderPair)

/-- The parsed-URL model: base (scheme/host/path), ordered query pairs,
fragment. -/
structure ParsedURL where
  base : List Char
  query : List (List Char × List Char)
  fragment : List Char
deriving DecidableEq, Repr

/-- Whether `pat` occurs contiguously inside the list. -/
def hasSubSeq (pat : List Char) : List Char → Bool
  | [] => pat.isEmpty
  | a :: rest => pat.isPrefixOf (a :: rest) || hasSubSeq pat rest

/-- A string is accepted as a URL when its base contains `://` (standing in
for WHATWG scheme validation, which is what makes `new URL` throw). -/
def hasScheme (base : List Char) : Bool :=
  hasSubSeq [':', '/', '/'] base

/-- Parse: fragment at the first `#`, then query at the first `?` of the
remainder. -/
def parseURLChars (l : List Char) : Option ParsedURL :=
  let s1 := splitOnFirstChar '#' l
  let s2 := splitOnFirstChar '?' s1.1
  if hasScheme s2.1 then
    some ⟨s2.1, parseQuery (s2.2.getD []), s1.2.getD []⟩
  else none

/-- Serialise a parsed URL. -/
def renderURLChars (p : ParsedURL) : List Char :=
  p.base ++ (if p.query = [] then [] else '?' :: renderQuery p.query)
    ++ (if p.fragment = [] then [] else '#' :: p.fragment)

/-- Whether a key satisfies the source test, lowered and then checked for
the prefix `utm_`. -/
def isUtmKey (k : List Char) : Bool :=
  ['u', 't', 'm', '_'].isPrefixOf (k.map Char.toLower)

/-- Source function `normalizeLink`: drop query parameters whose name starts with `utm_`
(case-insensitively) and the fragment; return the input unchanged when it
does not parse. -/
def normalizeLink (url : String) : String :=
  match parseURLChars url.data with
  | none => url
  | some p =>
    String.mk (renderURLChars ⟨p.base, p.query.filter (fun kv => !(isUtmKey kv.1)), []⟩)

/-! Time window (`computeTimezoneStartOfDay`, lines 366–379, and
`windowMinutes`, lines 660–667) -/

/-- Milliseconds per UTC day. -/
def dayMs : ℤ := 86400000

/-- Source function `computeTimezoneStartOfDay(date, offsetMinutes)`: a
non-finite offset
(`none`) counts as `0`; shift by the offset, truncate the shifted time to
its UTC midnight (`Date.UTC` of the shifted date's UTC Y/M/D, i.e. floor
to a multiple of `dayMs`), shift back.  Times are epoch milliseconds. -/
def computeTimezoneStartOfDay (t : ℤ) (offsetMinutes : Option ℤ) : ℤ :=
  let offset := offsetMinutes.getD 0
  let shifted := t + offset * 60000
  let tzMidnightUTC := dayMs * (shifted / dayMs)
  tzMidnightUTC - offset * 60000

/-- The handler computes
`windowMinutes = max(1, Math.round((now - startOfDay) / 60000))`. -/
def windowMinutesOf (t : ℤ) (offsetMinutes : Option ℤ) : ℤ :=
  max 1 (round (((t - computeTimezoneStartOfDay t offsetMinutes : ℤ) : ℚ) / 60000))

/-! Per-run ingestion, dedup and aggregation (handler lines 702–841). -/

/-- Static `SOURCE_WEIGHTS` table (lines 155–164). -/
def SOURCE_WEIGHTS (s : String) : Option ℚ :=
  if s = "Reuters" then some (13/10)
  else if s = "Bloomberg" then some (5/4)
  else if s = "The Wall Street Journal" then some (6/5)
  else if s = "WSJ" then some (6/5)
  else if s = "Financial Times" then some (6/5)
  else if s = "CoinDesk" then some (23/20)
  else if s = "Cointelegraph" then some (11/10)
  else if s = "The Block" then some (11/10)
  else none

/-- Source function `weightForSource`: trimmed exact lookup, default `1`. -/
def weightForSource (source : String) : ℚ :=
  (SOURCE_WEIGHTS source.trim).getD 1

/-- A raw feed item as the per-item loop sees it: the original link string,
the age in minutes of its parsed publish date (`none` when the date does
not parse), the resolved source name, and the sentiment the scoring
pipeline returns for it (`scoreSentiment` never yields `null`). -/
structure RawItem where
  title : String
  link : String
  minutesAgo : Option ℚ
  source : String
  sentiment : SentimentScore
deriving DecidableEq, Repr

/-- The per-run aggregation accumulators. -/
structure AggState where
  posW : ℚ
  negW : ℚ
  neuW : ℚ
  posCount : ℕ
  negCount : ℕ
  neuCount : ℕ
deriving DecidableEq, Repr

/-- The empty accumulators. -/
def AggState.init : AggState := ⟨0, 0, 0, 0, 0, 0⟩

/-- JavaScript `Number(x.toFixed(4))`: round to 4 decimal places. -/
def roundTo4 (x : ℚ) : ℚ :=
  (round (x * 10000) : ℚ) / 10000

/-- Source closure `accumulate(sentiment, score, weightFactor)`
(lines 712–726): add
`clamp(0.5, 2, |score|) * weightFactor` to the class's weight sum, bump the
class count, and return the display weight `round(score*weightFactor, 4)`. -/
def accumulate (agg : AggState) (sentiment : Sentiment) (score weightFactor : ℚ) :
    AggState × ℚ :=
  let magnitudeBoost := clamp (1/2) 2 |score|
  let weightedContribution := magnitudeBoost * weightFactor
  let agg' :=
    match sentiment with
    | .positive => { agg with posW := agg.posW + weightedContribution,
                              posCount := agg.posCount + 1 }
    | .negative => { agg with negW := agg.negW + weightedContribution,
                              negCount := agg.negCount + 1 }
    | .neutral => { agg with neuW := agg.neuW + weightedContribution,
                             neuCount := agg.neuCount + 1 }
  (agg', roundTo4 (score * weightFactor))

/-- The run state threaded through the per-item loops: seen normalized
links, output items, accumulators. -/
structure RunState where
  seen : List String
  out : List SignalItem
  agg : AggState
deriving DecidableEq, Repr

/-- The initial run state. -/
def RunState.init : RunState := ⟨[], [], AggState.init⟩

/-- One iteration of the per-item loop (both the RSS loop, lines 733–781,
and the CryptoPanic loop, lines 790–836, perform these steps): normalize
the link, skip when empty or already seen, skip when the publish date is
unparsable or outside `[0, windowMinutes]`, otherwise score, weight,
record the link as seen and append the output item. -/
def processItem (windowMinutes : ℚ) (st : RunState) (raw : RawItem) : RunState :=
  let link := normalizeLink raw.link
  if link = "" ∨ st.seen.contains link then st
  else
    match raw.minutesAgo with
    | none => st
    | some m =>
      if 0 ≤ m ∧ m ≤ windowMinutes then
        let weightFactor := weightForSource raw.source * decayWeight m windowMinutes
        let acc := accumulate st.agg raw.sentiment.label raw.sentiment.score weightFactor
        { seen := st.seen ++ [link]
          out := st.out ++ [{ title := if raw.title = "" then "(untitled)" else raw.title
                              link := link
                              minutesAgo := m
                              source := raw.source
                              sentiment := raw.sentiment.label
                              score := raw.sentiment.score
                              weight := acc.2 }]
          agg := acc.1 }
      else st

/-- One computation run over the raw items in encounter order (all RSS
feeds' items first, then the optional CryptoPanic items). -/
def runSignal (windowMinutes : ℚ) (rssItems cryptoPanicItems : List RawItem) : RunState :=
  (rssItems ++ cryptoPanicItems).foldl (processItem windowMinutes) RunState.init

/-- The run-state invariant: the seen set is exactly the links of the output
items, which are pairwise distinct. -/
def RunInv (st : RunState) : Prop :=
  st.seen = st.out.map (fun it => it.link) ∧ st.seen.Nodup

/-! Response cache (lines 203–207, 668–685, 861–863). -/

/-- The single cache slot: write timestamp plus payload. -/
structure CacheSlot where
  timestamp : ℤ
  payload : SignalResponse
deriving DecidableEq, Repr

/-- The cache-hit condition (line 671–676): TTL positive, no force
parameter, a slot present, and its age strictly below the TTL. -/
def isCacheHit (ttlMs : ℤ) (cache : Option CacheSlot) (nowMs : ℤ) (force : Bool) : Bool :=
  decide (ttlMs > 0) && !force &&
    (match cache with
     | none => false
     | some c => decide (nowMs - c.timestamp < ttlMs))

/-- The served payload on a cache hit (lines 677–684): the cached payload
with `windowMinutes` recomputed from the current time and
`timezoneOffsetMinutes` from the current configuration when it is finite. -/
def servedOnHit (cached : SignalResponse) (nowMs : ℤ) (tzOffset : Option ℤ) : SignalResponse :=
  { cached with
      windowMinutes := windowMinutesOf nowMs tzOffset
      timezoneOffsetMinutes := tzOffset.getD cached.timezoneOffsetMinutes }

/-- The cache portion of a handler invocation: on a hit serve the adjusted
cached payload and leave the slot untouched; on a miss serve the freshly
computed payload and store it (when caching is enabled, lines 861–863). -/
def handlerCacheStep (ttlMs : ℤ) (tzOffset : Option ℤ) (cache : Option CacheSlot)
    (nowMs : ℤ) (force : Bool) (fresh : SignalResponse) :
    SignalResponse × Option CacheSlot :=
  if isCacheHit ttlMs cache nowMs force then
    match cache with
    | some c => (servedOnHit c.payload nowMs tzOffset, cache)
    | none => (fresh, cache)
  else
    (fresh, if ttlMs > 0 then some ⟨nowMs, fresh⟩ else cache)

/-- The force test `typeof req.query.force` differing from undefined: the
parsed query, as a
key/value list, contains a parameter named `force` — the value is never
looked at. -/
def forceFlag (query : List (String × String)) : Bool :=
  query.any fun kv => kv.1 == "force"

/-! Helper lemmas. -/

theorem clamp_of_le {lo hi v : ℚ} (h1 : lo ≤ v) (h2 : v ≤ hi) : clamp lo hi v = v := by
  unfold clamp
  rw [max_eq_right h1, min_eq_right h2]

theorem linearTimeDecay_eq {m W : ℚ} (hW : 1 ≤ W) (hm0 : 0 ≤ m) (hmW : m ≤ W) :
    linearTimeDecay m W = 1 - (3/10) * (m / W) := by
  have hWpos : (0 : ℚ) < W := lt_of_lt_of_le one_pos hW
  have hdiv0 : 0 ≤ m / W := div_nonneg hm0 hWpos.le
  have hdiv1 : m / W ≤ 1 := (div_le_one hWpos).mpr hmW
  unfold linearTimeDecay
  simp only [max_eq_left hW, clamp_of_le hm0 hmW]
  rw [clamp_of_le (by linarith) (by linarith)]
  ring

theorem decayWeight_in_window {m W : ℚ} (hW : 1 ≤ W) (hm0 : 0 ≤ m) (hmW : m ≤ W) :
    decayWeight m W = 1 - (3/10) * (m / W) := by
  unfold decayWeight
  rw [if_neg (by push_neg; exact ⟨hm0, hmW⟩), linearTimeDecay_eq hW hm0 hmW]

/-- C3: for `windowMinutes ≥ 1`, the decay weight is
`clamp(0.7, 1, 1 − 0.3·clamp(minutesAgo/W, 0, 1))` inside `[0, W]` and `0`
outside; it is `1` at age `0`, `0.7` at age `W`, and non-increasing in the
age on `[0, W]`. -/
theorem decayWeight_spec (m W : ℚ) (hW : 1 ≤ W) :
    (0 ≤ m → m ≤ W → decayWeight m W = clamp (7/10) 1 (1 - (3/10) * clamp 0 1 (m / W))) ∧
    (m < 0 ∨ m > W → decayWeight m W = 0) ∧
    decayWeight 0 W = 1 ∧
    decayWeight W W = 7/10 ∧
    (∀ m₁ m₂ : ℚ, 0 ≤ m₁ → m₁ ≤ m₂ → m₂ ≤ W → decayWeight m₂ W ≤ decayWeight m₁ W) := by
  have hWpos : (0 : ℚ) < W := lt_of_lt_of_le one_pos hW
  refine ⟨?_, ?_, ?_, ?_, ?_⟩
  · intro hm0 hmW
    have hdiv0 : 0 ≤ m / W := div_nonneg hm0 hWpos.le
    have hdiv1 : m / W ≤ 1 := (div_le_one hWpos).mpr hmW
    rw [decayWeight_in_window hW hm0 hmW, clamp_of_le hdiv0 hdiv1,
      clamp_of_le (by linarith) (by linarith)]
  · intro h
    unfold decayWeight
    rw [if_pos h]
  · rw [decayWeight_in_window hW le_rfl hWpos.le]
    simp
  · rw [decayWeight_in_window hW hWpos.le le_rfl, div_self hWpos.ne.symm]
    norm_num
  · intro m₁ m₂ h0 h12 h2W
    rw [decayWeight_in_window hW h0 (le_trans h12 h2W),
      decayWeight_in_window hW (le_trans h0 h12) h2W]
    have : m₁ / W ≤ m₂ / W := by
      gcongr
    linarith

/-- Witness for `decayWeight_spec` at concrete inputs. -/
theorem decayWeight_spec_witness :
    decayWeight 100 200 = clamp (7/10) 1 (1 - (3/10) * clamp 0 1 (100 / 200)) ∧
    decayWeight (-5) 200 = 0 ∧
    decayWeight 0 200 = 1 ∧
    decayWeight 200 200 = 7/10 ∧
    decayWeight 150 200 ≤ decayWeight 50 200 :=
  ⟨(decayWeight_spec 100 200 (by norm_num)).1 (by norm_num) (by norm_num),
   (decayWeight_spec (-5) 200 (by norm_num)).2.1 (Or.inl (by norm_num)),
   (decayWeight_spec 0 200 (by norm_num)).2.2.1,
   (decayWeight_spec 200 200 (by norm_num)).2.2.2.1,
   (decayWeight_spec 0 200 (by norm_num)).2.2.2.2 50 150 (by norm_num) (by norm_num)
     (by norm_num)⟩

/-- C1: with nonnegative running sums (as every run produces), the response
has `longPct = round(posW/(posW+negW)·100)` and `shortPct = 100 − longPct`
when `posW + negW > 0`, both `0` when `posW + negW = 0`; the recommendation
is `LONG` iff `posW > 1.05·negW`, `SHORT` iff `negW > 1.05·posW`, else
`NEUTRAL`; and `(60, 40)` yields `60 / 40 / LONG` while `(50, 49)` yields
`NEUTRAL`. -/
theorem buildResponse_spec (wm tz : ℤ) (g : String) (items : List SignalItem)
    (posW negW neuW : ℚ) (pc nc uc : ℕ)
    (hpos : 0 ≤ posW) (hneg : 0 ≤ negW) :
    ((posW + negW > 0 →
        (buildResponse wm tz g items posW negW neuW pc nc uc).longPct =
          round (posW / (posW + negW) * 100) ∧
        (buildResponse wm tz g items posW negW neuW pc nc uc).shortPct =
          100 - (buildResponse wm tz g items posW negW neuW pc nc uc).longPct ∧
        (buildResponse wm tz g items posW negW neuW pc nc uc).longPct +
          (buildResponse wm tz g items posW negW neuW pc nc uc).shortPct = 100) ∧
     (posW + negW = 0 →
        (buildResponse wm tz g items posW negW neuW pc nc uc).longPct = 0 ∧
        (buildResponse wm tz g items posW negW neuW pc nc uc).shortPct = 0) ∧
     ((buildResponse wm tz g items posW negW neuW pc nc uc).recommendation = .LONG ↔
        posW > (21/20) * negW) ∧
     ((buildResponse wm tz g items posW negW neuW pc nc uc).recommendation = .SHORT ↔
        negW > (21/20) * posW) ∧
     ((buildResponse wm tz g items posW negW neuW pc nc uc).recommendation = .NEUTRAL ↔
        (posW ≤ (21/20) * negW ∧ negW ≤ (21/20) * posW))) ∧
    (buildResponse wm tz g items 60 40 neuW pc nc uc).longPct = 60 ∧
    (buildResponse wm tz g items 60 40 neuW pc nc uc).shortPct = 40 ∧
    (buildResponse wm tz g items 60 40 neuW pc nc uc).recommendation = .LONG ∧
    (buildResponse wm tz g items 50 49 neuW pc nc uc).recommendation = .NEUTRAL := by
  have hexcl : ¬(posW > negW * (21/20) ∧ negW > posW * (21/20)) := by
    rintro ⟨h1, h2⟩
    nlinarith
  constructor
  · refine ⟨?_, ?_, ?_, ?_, ?_⟩
    · intro hdir
      simp only [buildResponse, if_pos hdir]
      exact ⟨trivial, trivial, by ring⟩
    · intro hdir
      have : ¬ posW + negW > 0 := by rw [hdir]; exact lt_irrefl 0
      simp only [buildResponse, if_neg this]
      constructor <;> split <;> rfl
    · simp only [buildResponse]
      constructor
      · intro h
        split at h
        · linarith [mul_comm negW (21/20 : ℚ)]
        · split at h <;> exact absurd h (by simp)
      · intro h
        rw [if_pos (by linarith [mul_comm (21/20 : ℚ) negW])]
    · simp only [buildResponse]
      constructor
      · intro h
        split at h
        · exact absurd h (by simp)
        · split at h
          · next h2 => linarith [mul_comm (21/20 : ℚ) posW]
          · exact absurd h (by simp)
      · intro h
        have h1 : ¬ posW > negW * (21/20) := by
          intro hc
          exact hexcl ⟨hc, by linarith [mul_comm (21/20 : ℚ) posW]⟩
        rw [if_neg h1, if_pos (by linarith [mul_comm (21/20 : ℚ) posW])]
    · simp only [buildResponse]
      constructor
      · intro h
        split at h
        · exact absurd h (by simp)
        · split at h
          · exact absurd h (by simp)
          · next h1 h2 => exact ⟨by linarith, by linarith⟩
      · rintro ⟨h1, h2⟩
        rw [if_neg (by intro hc; linarith), if_neg (by intro hc; linarith)]
  · refine ⟨?_, ?_, ?_, ?_⟩
    · have h : (60 : ℚ) + 40 > 0 := by norm_num
      simp only [buildResponse, if_pos h]
      norm_num
    · have h : (60 : ℚ) + 40 > 0 := by norm_num
      simp only [buildResponse, if_pos h]
      norm_num
    · simp only [buildResponse]
      rw [if_pos (by norm_num)]
    · simp only [buildResponse]
      rw [if_neg (by norm_num), if_neg (by norm_num)]

/-- Witness for `buildResponse_spec` at a concrete input. -/
theorem buildResponse_spec_witness :
    (buildResponse 330 0 "" [] 3 1 0 2 1 0).longPct = round ((3 : ℚ) / (3 + 1) * 100) ∧
    (buildResponse 330 0 "" [] 3 1 0 2 1 0).recommendation = .LONG := by
  have h := buildResponse_spec 330 0 "" [] 3 1 0 2 1 0 (by norm_num) (by norm_num)
  exact ⟨(h.1.1 (by norm_num)).1, h.1.2.2.1.mpr (by norm_num)⟩

/-- C2 counterexample: with per-class probabilities
`positive = 0.3, negative = 0.1, neutral = 0.35` the strongest class
probability `0.35` is below `0.4`, yet the model result is directional
(`positive` with score `1`), not neutral — the low-confidence guard falls
through when `|positive − negative| ≥ 0.05` and the neutral probability is
below `0.4`. -/
theorem scoreSentimentModelProbs_counterexample :
    max (3/10 : ℚ) (max (1/10) (7/20)) < 2/5 ∧
    scoreSentimentModelProbs (3/10) (1/10) (7/20) = ⟨.positive, 1⟩ ∧
    scoreSentimentModelProbs (3/10) (1/10) (7/20) ≠ ⟨.neutral, 0⟩ := by
  refine ⟨by norm_num [max_def], ?_, ?_⟩ <;>
    norm_num [scoreSentimentModelProbs, modelDirectional, max_def, abs_lt]

/-- C2 (amended): the model result is neutral with score `0` exactly when
`|positive − negative| < 0.05`; otherwise it is directional with magnitude
`max(0.5, 5·|positive − negative|)` regardless of the strongest class
probability. -/
theorem scoreSentimentModelProbs_spec (pos neg neu : ℚ) :
    scoreSentimentModelProbs pos neg neu =
      if |pos - neg| < 1/20 then ⟨.neutral, 0⟩
      else if pos - neg > 0 then ⟨.positive, max (1/2) ((pos - neg) * 5)⟩
      else ⟨.negative, -(max (1/2) (|pos - neg| * 5))⟩ := by
  unfold scoreSentimentModelProbs modelDirectional
  dsimp only
  by_cases hd : |pos - neg| < 1/20
  · rw [if_pos (Or.inr hd)]
    conv_rhs => rw [if_pos hd]
    split_ifs with h1 <;> rfl
  · conv_rhs => rw [if_neg hd]
    have hlt : ¬ pos - neg > 0 → pos - neg < 0 := by
      intro hp
      rcases lt_trichotomy (pos - neg) 0 with h | h | h
      · exact h
      · exact absurd (by rw [h]; norm_num : |pos - neg| < 1/20) hd
      · exact absurd h hp
    by_cases houter : max pos (max neg neu) < 2/5 ∨ |pos - neg| < 1/20
    · rw [if_pos houter]
      have hst : max pos (max neg neu) < 2/5 := houter.resolve_right hd
      have hn1 : ¬ (neu ≥ 2/5 ∧ neu ≥ pos ∧ neu ≥ neg) := by
        rintro ⟨hneu, -, -⟩
        have hle : neu ≤ max pos (max neg neu) :=
          le_trans (le_max_right neg neu) (le_max_right pos (max neg neu))
        linarith
      rw [if_neg hn1, if_neg hd]
      by_cases hp : pos - neg > 0
      · rw [if_pos hp, if_pos hp]
      · rw [if_neg hp, if_neg hp, if_pos (hlt hp)]
    · rw [if_neg houter]
      by_cases hp : pos - neg > 0
      · rw [if_pos hp, if_pos hp]
      · rw [if_neg hp, if_neg hp, if_pos (hlt hp)]

theorem mathSign_pos {x : ℚ} (h : 0 < x) : mathSign x = 1 := by
  unfold mathSign
  rw [if_pos h]

theorem mathSign_neg {x : ℚ} (h : x < 0) : mathSign x = -1 := by
  unfold mathSign
  rw [if_neg (lt_asymm h), if_pos h]

/-- C4: the sentiment combiner uses the lexicon score when the model is
absent, or when the model is neutral and the lexicon is non-zero; the model
score when the lexicon is zero; the shared sign with the larger magnitude
when both are non-zero with the same sign; and the larger-magnitude side
when the signs are opposite — including the spec's three examples. -/
theorem combineSentiments_spec :
    (∀ L : SentimentScore, combineSentiments none L = L) ∧
    (∀ M L : SentimentScore, M.label = .neutral → L.score ≠ 0 →
        combineSentiments (some M) L = L) ∧
    (∀ M L : SentimentScore, L.score = 0 → combineSentiments (some M) L = M) ∧
    (∀ M L : SentimentScore, M.label ≠ .neutral →
        (0 < M.score → 0 < L.score →
           combineSentiments (some M) L = ⟨.positive, max M.score L.score⟩) ∧
        (M.score < 0 → L.score < 0 →
           combineSentiments (some M) L = ⟨.negative, min M.score L.score⟩) ∧
        (M.score ≠ 0 → L.score ≠ 0 → mathSign M.score ≠ mathSign L.score →
           (|M.score| > |L.score| → combineSentiments (some M) L = M) ∧
           (|L.score| > |M.score| → combineSentiments (some M) L = L))) ∧
    combineSentiments (some ⟨.neutral, 0⟩) ⟨.positive, 2⟩ = ⟨.positive, 2⟩ ∧
    combineSentiments (some ⟨.negative, -(6/5)⟩) ⟨.neutral, 0⟩ = ⟨.negative, -(6/5)⟩ ∧
    combineSentiments (some ⟨.negative, -3⟩) ⟨.positive, 1⟩ = ⟨.negative, -3⟩ := by
  have habs_pos : ∀ x : ℚ, 0 < x → |x| = x := fun x hx => abs_of_pos hx
  refine ⟨fun L => rfl, ?_, ?_, ?_, ?_, ?_, ?_⟩
  · intro M L hM hL
    unfold combineSentiments
    dsimp only
    rw [if_pos ⟨hM, hL⟩]
  · intro M L hL0
    unfold combineSentiments
    dsimp only
    rw [if_neg (fun h => h.2 hL0), if_pos hL0]
  · intro M L hMn
    refine ⟨?_, ?_, ?_⟩
    · intro hM hL
      unfold combineSentiments
      dsimp only
      rw [if_neg (fun h => hMn h.1), if_neg hL.ne',
        if_pos (by rw [mathSign_pos hM, mathSign_pos hL])]
      simp only [jsOrNum, if_neg hM.ne', mathSign_pos hM, one_mul,
        abs_of_pos hM, abs_of_pos hL]
      unfold labelFromScore
      rw [if_pos (lt_max_iff.mpr (Or.inl hM))]
    · intro hM hL
      unfold combineSentiments
      dsimp only
      rw [if_neg (fun h => hMn h.1), if_neg hL.ne,
        if_pos (by rw [mathSign_neg hM, mathSign_neg hL])]
      simp only [jsOrNum, if_neg hM.ne, mathSign_neg hM,
        abs_of_neg hM, abs_of_neg hL, max_neg_neg, neg_one_mul, neg_neg]
      unfold labelFromScore
      have hmin : min M.score L.score < 0 := min_lt_iff.mpr (Or.inl hM)
      rw [if_neg (lt_asymm hmin), if_pos hmin]
    · intro hM0 hL0 hsign
      constructor
      · intro hgt
        unfold combineSentiments
        dsimp only
        rw [if_neg (fun h => hMn h.1), if_neg hL0, if_neg hsign, if_pos hgt.le]
      · intro hgt
        unfold combineSentiments
        dsimp only
        rw [if_neg (fun h => hMn h.1), if_neg hL0, if_neg hsign,
          if_neg (not_le.mpr hgt)]
  · unfold combineSentiments
    dsimp only
    rw [if_pos ⟨rfl, by norm_num⟩]
  · unfold combineSentiments
    dsimp only
    rw [if_neg (fun h => by exact absurd h.1 (by simp)), if_pos rfl]
  · unfold combineSentiments
    dsimp only
    rw [if_neg (fun h => by exact absurd h.1 (by simp)), if_neg (by norm_num),
      if_neg (by rw [mathSign_neg (by norm_num : (-3 : ℚ) < 0),
        mathSign_pos (by norm_num : (0 : ℚ) < 1)]; norm_num),
      if_pos (by rw [abs_of_neg (by norm_num : (-3 : ℚ) < 0),
        abs_of_pos (by norm_num : (0 : ℚ) < 1)]; norm_num)]

/-- Witness for `combineSentiments_spec` at concrete inputs. -/
theorem combineSentiments_spec_witness :
    combineSentiments (some ⟨.neutral, 0⟩) ⟨.positive, 3⟩ = ⟨.positive, 3⟩ ∧
    combineSentiments (some ⟨.positive, 2⟩) ⟨.positive, 1⟩ = ⟨.positive, max 2 1⟩ ∧
    combineSentiments (some ⟨.negative, -1⟩) ⟨.negative, -2⟩ = ⟨.negative, min (-1) (-2)⟩ ∧
    combineSentiments (some ⟨.positive, 1⟩) ⟨.negative, -2⟩ = ⟨.negative, -2⟩ := by
  refine ⟨combineSentiments_spec.2.1 ⟨.neutral, 0⟩ ⟨.positive, 3⟩ rfl (by norm_num),
    (combineSentiments_spec.2.2.2.1 ⟨.positive, 2⟩ ⟨.positive, 1⟩ (by simp)).1
      (by norm_num) (by norm_num),
    (combineSentiments_spec.2.2.2.1 ⟨.negative, -1⟩ ⟨.negative, -2⟩ (by simp)).2.1
      (by norm_num) (by norm_num),
    ((combineSentiments_spec.2.2.2.1 ⟨.positive, 1⟩ ⟨.negative, -2⟩ (by simp)).2.2
        (by norm_num) (by norm_num) ?_).2 ?_⟩
  · rw [mathSign_pos (by norm_num : (0 : ℚ) < 1),
      mathSign_neg (by norm_num : (-2 : ℚ) < 0)]
    norm_num
  · rw [abs_of_pos (by norm_num : (0 : ℚ) < 1),
      abs_of_neg (by norm_num : (-2 : ℚ) < 0)]
    norm_num

/-- C7: start-of-day shifts `now` forward by the offset, truncates to UTC
midnight in the shifted frame (the largest multiple of a day not above the
shifted time), and shifts back; `windowMinutes` is `max 1` of the rounded
minute count since start-of-day; with offset `0` and
`now = 2024-01-01T05:30:00Z` (epoch ms `1704087000000`) this gives
start-of-day `2024-01-01T00:00:00Z` (`1704067200000`) and window `330`. -/
theorem computeTimezoneStartOfDay_spec (t off : ℤ) :
    computeTimezoneStartOfDay t (some off) =
      (t + off * 60000) - (t + off * 60000) % dayMs - off * 60000 ∧
    (computeTimezoneStartOfDay t (some off) + off * 60000) % dayMs = 0 ∧
    computeTimezoneStartOfDay t (some off) ≤ t ∧
    t - computeTimezoneStartOfDay t (some off) < dayMs ∧
    windowMinutesOf t (some off) =
      max 1 (round (((t - computeTimezoneStartOfDay t (some off) : ℤ) : ℚ) / 60000)) ∧
    computeTimezoneStartOfDay 1704087000000 (some 0) = 1704067200000 ∧
    windowMinutesOf 1704087000000 (some 0) = 330 := by
  have hS : computeTimezoneStartOfDay 1704087000000 (some 0) = 1704067200000 := by
    simp only [computeTimezoneStartOfDay, dayMs, Option.getD]
    omega
  refine ⟨?_, ?_, ?_, ?_, rfl, hS, ?_⟩
  · simp only [computeTimezoneStartOfDay, dayMs, Option.getD]
    omega
  · simp only [computeTimezoneStartOfDay, dayMs, Option.getD]
    omega
  · simp only [computeTimezoneStartOfDay, dayMs, Option.getD]
    omega
  · simp only [computeTimezoneStartOfDay, dayMs, Option.getD]
    omega
  · unfold windowMinutesOf
    rw [hS]
    rw [show (((1704087000000 - 1704067200000 : ℤ) : ℚ) / 60000) = ((330 : ℤ) : ℚ) by
      norm_num]
    rw [round_intCast]
    norm_num

theorem contains_of_mem {l : List String} {a : String} (h : a ∈ l) :
    l.contains a = true :=
  List.elem_eq_true_of_mem h

theorem processItem_skip_of_seen (W : ℚ) (st : RunState) (raw : RawItem)
    (h : normalizeLink raw.link ∈ st.seen) : processItem W st raw = st := by
  unfold processItem
  rw [if_pos (Or.inr (contains_of_mem h))]

theorem processItem_inv (W : ℚ) (st : RunState) (raw : RawItem)
    (h : RunInv st) : RunInv (processItem W st raw) := by
  unfold processItem
  dsimp only
  by_cases h1 : normalizeLink raw.link = "" ∨
      st.seen.contains (normalizeLink raw.link) = true
  · rw [if_pos h1]
    exact h
  · rw [if_neg h1]
    cases raw.minutesAgo with
    | none => exact h
    | some m =>
      dsimp only
      by_cases h2 : 0 ≤ m ∧ m ≤ W
      · rw [if_pos h2]
        refine ⟨?_, ?_⟩
        · show st.seen ++ [normalizeLink raw.link] = _
          rw [h.1, List.map_append]
          rfl
        · show (st.seen ++ [normalizeLink raw.link]).Nodup
          rw [List.nodup_append]
          refine ⟨h.2, List.nodup_singleton _, ?_⟩
          intro a ha hb
          rw [List.mem_singleton] at hb
          subst hb
          exact h1 (Or.inr (contains_of_mem ha))
      · rw [if_neg h2]
        exact h

theorem foldl_processItem_inv (W : ℚ) (l : List RawItem) :
    ∀ st : RunState, RunInv st → RunInv (List.foldl (processItem W) st l) := by
  induction l with
  | nil => exact fun st h => h
  | cons a t ih => exact fun st h => ih _ (processItem_inv W st a h)

/-- C6 counterexample: two raw items with identical normalized links where
the first-encountered one has an out-of-window publish date.  The run's only
output item comes from the *later* item `B`; the first-encountered `A`
contributes nothing, so it is not true that only the first-encountered item
contributes and every later same-link item is skipped. -/
theorem runSignal_first_seen_counterexample :
    normalizeLink (RawItem.link ⟨"A", "https://a.com/x", some 20, "S", ⟨.positive, 1⟩⟩) =
      normalizeLink (RawItem.link ⟨"B", "https://a.com/x", some 5, "S", ⟨.positive, 1⟩⟩) ∧
    (runSignal 10 [⟨"A", "https://a.com/x", some 20, "S", ⟨.positive, 1⟩⟩,
        ⟨"B", "https://a.com/x", some 5, "S", ⟨.positive, 1⟩⟩] []).out.map
      (fun it => it.title) = ["B"] ∧
    (runSignal 10 [⟨"A", "https://a.com/x", some 20, "S", ⟨.positive, 1⟩⟩] []).out = [] := by
  with_unfolding_all decide

/-- C6 (amended): within one run the output items' normalized links are
pairwise distinct, and any raw item whose normalized link equals the link of
an item that already contributed is skipped entirely (the run result is the
same as if it were removed).  The surviving item is the first one to pass
the link and date-window checks, not necessarily the first-encountered. -/
theorem runSignal_dedup_spec (W : ℚ) (rss cp : List RawItem) :
    ((runSignal W rss cp).out.map (fun it => it.link)).Nodup ∧
    (∀ (l₁ l₂ : List RawItem) (b : RawItem),
       rss ++ cp = l₁ ++ b :: l₂ →
       normalizeLink b.link ∈
         (List.foldl (processItem W) RunState.init l₁).out.map (fun it => it.link) →
       runSignal W rss cp = List.foldl (processItem W) RunState.init (l₁ ++ l₂)) := by
  constructor
  · have h := foldl_processItem_inv W (rss ++ cp) RunState.init ⟨rfl, List.nodup_nil⟩
    exact h.1 ▸ h.2
  · intro l₁ l₂ b heq hmem
    have hinv1 := foldl_processItem_inv W l₁ RunState.init ⟨rfl, List.nodup_nil⟩
    have hseen : normalizeLink b.link ∈
        (List.foldl (processItem W) RunState.init l₁).seen := by
      rw [hinv1.1]
      exact hmem
    unfold runSignal
    rw [heq, List.foldl_append, List.foldl_append, List.foldl_cons,
      processItem_skip_of_seen W _ b hseen]

/-- Witness for `runSignal_dedup_spec` at a concrete input. -/
theorem runSignal_dedup_spec_witness :
    ((runSignal 10 [⟨"x", "https://a.com/x", some 1, "S", ⟨.positive, 1⟩⟩,
        ⟨"y", "https://a.com/x", some 2, "S", ⟨.negative, -1⟩⟩] []).out.map
      (fun it => it.link)).Nodup ∧
    runSignal 10 [⟨"x", "https://a.com/x", some 1, "S", ⟨.positive, 1⟩⟩,
        ⟨"y", "https://a.com/x", some 2, "S", ⟨.negative, -1⟩⟩] [] =
      List.foldl (processItem 10) RunState.init
        [⟨"x", "https://a.com/x", some 1, "S", ⟨.positive, 1⟩⟩] := by
  refine ⟨(runSignal_dedup_spec 10 _ []).1, ?_⟩
  have h := (runSignal_dedup_spec 10
    [⟨"x", "https://a.com/x", some 1, "S", ⟨.positive, 1⟩⟩,
     ⟨"y", "https://a.com/x", some 2, "S", ⟨.negative, -1⟩⟩] []).2
    [⟨"x", "https://a.com/x", some 1, "S", ⟨.positive, 1⟩⟩] []
    ⟨"y", "https://a.com/x", some 2, "S", ⟨.negative, -1⟩⟩ rfl
    (by with_unfolding_all decide)
  simpa using h

/-- C8: each scored item adds `clamp(|score|, 0.5, 2) · weightFactor` to its
class's weight sum and exactly `1` to its class count, where
`weightFactor = sourceWeight · decay`; a neutral item with score `0` still
adds `0.5 · weightFactor`; the stored display weight is
`score · weightFactor` rounded to 4 decimals, distinct from the clamped
aggregation magnitude. -/
theorem accumulate_contribution_spec (agg : AggState) (score wf : ℚ) :
    (∀ label : Sentiment, (accumulate agg label score wf).2 = roundTo4 (score * wf)) ∧
    (accumulate agg .positive score wf).1 =
      { agg with posW := agg.posW + clamp (1/2) 2 |score| * wf,
                 posCount := agg.posCount + 1 } ∧
    (accumulate agg .negative score wf).1 =
      { agg with negW := agg.negW + clamp (1/2) 2 |score| * wf,
                 negCount := agg.negCount + 1 } ∧
    (accumulate agg .neutral score wf).1 =
      { agg with neuW := agg.neuW + clamp (1/2) 2 |score| * wf,
                 neuCount := agg.neuCount + 1 } ∧
    (accumulate agg .neutral 0 wf).1.neuW = agg.neuW + (1/2) * wf ∧
    (∀ (W : ℚ) (st : RunState) (raw : RawItem) (m : ℚ),
       normalizeLink raw.link ≠ "" →
       st.seen.contains (normalizeLink raw.link) = false →
       raw.minutesAgo = some m → 0 ≤ m → m ≤ W →
       (processItem W st raw).agg =
         (accumulate st.agg raw.sentiment.label raw.sentiment.score
           (weightForSource raw.source * decayWeight m W)).1 ∧
       (processItem W st raw).out.map (fun it => it.weight) =
         st.out.map (fun it => it.weight) ++
           [(accumulate st.agg raw.sentiment.label raw.sentiment.score
              (weightForSource raw.source * decayWeight m W)).2]) := by
  have habs0 : clamp (1/2) 2 |(0 : ℚ)| = 1/2 := by
    rw [abs_zero]
    unfold clamp
    rw [max_eq_left (by norm_num), min_eq_right (by norm_num)]
  refine ⟨?_, rfl, rfl, rfl, ?_, ?_⟩
  · intro label
    cases label <;> rfl
  · show agg.neuW + clamp (1/2) 2 |(0 : ℚ)| * wf = agg.neuW + (1/2) * wf
    rw [habs0]
  · intro W st raw m hlink hseen hma h0 hW
    unfold processItem
    dsimp only
    rw [if_neg (by
      rintro (hc | hc)
      · exact hlink hc
      · rw [hseen] at hc
        exact Bool.false_ne_true hc)]
    rw [hma]
    dsimp only
    rw [if_pos ⟨h0, hW⟩]
    exact ⟨rfl, by rw [List.map_append, List.map_singleton]⟩

/-- Witness for `accumulate_contribution_spec` at a concrete input. -/
theorem accumulate_contribution_spec_witness :
    (accumulate AggState.init .neutral 0 1).1.neuW = AggState.init.neuW + (1/2) * 1 ∧
    (processItem 10 RunState.init ⟨"t", "https://a.com/x", some 5, "S", ⟨.positive, 1⟩⟩).agg =
      (accumulate RunState.init.agg .positive 1 (weightForSource "S" * decayWeight 5 10)).1 := by
  have h := accumulate_contribution_spec AggState.init 0 1
  have h2 := (accumulate_contribution_spec AggState.init 0 1).2.2.2.2.2 10 RunState.init
    ⟨"t", "https://a.com/x", some 5, "S", ⟨.positive, 1⟩⟩ 5
    (by decide) rfl rfl (by norm_num) (by norm_num)
  exact ⟨h.2.2.2.2.1, h2.1⟩

/-- C9: on a response-cache hit (positive TTL, cached age below TTL, no
force parameter, finite configured offset) the served payload equals the
cached payload in every field except `windowMinutes` (recomputed from the
current time) and `timezoneOffsetMinutes` (taken from the current
configuration), and the cache slot is left unchanged. -/
theorem handlerCacheStep_hit_spec (ttlMs z : ℤ) (c : CacheSlot) (nowMs : ℤ)
    (fresh : SignalResponse)
    (httl : 0 < ttlMs) (hage : nowMs - c.timestamp < ttlMs) :
    (handlerCacheStep ttlMs (some z) (some c) nowMs false fresh).1.items =
      c.payload.items ∧
    (handlerCacheStep ttlMs (some z) (some c) nowMs false fresh).1.counts =
      c.payload.counts ∧
    (handlerCacheStep ttlMs (some z) (some c) nowMs false fresh).1.weights =
      c.payload.weights ∧
    (handlerCacheStep ttlMs (some z) (some c) nowMs false fresh).1.longPct =
      c.payload.longPct ∧
    (handlerCacheStep ttlMs (some z) (some c) nowMs false fresh).1.shortPct =
      c.payload.shortPct ∧
    (handlerCacheStep ttlMs (some z) (some c) nowMs false fresh).1.recommendation =
      c.payload.recommendation ∧
    (handlerCacheStep ttlMs (some z) (some c) nowMs false fresh).1.generatedAt =
      c.payload.generatedAt ∧
    (handlerCacheStep ttlMs (some z) (some c) nowMs false fresh).1.windowMinutes =
      windowMinutesOf nowMs (some z) ∧
    (handlerCacheStep ttlMs (some z) (some c) nowMs false fresh).1.timezoneOffsetMinutes =
      z ∧
    (handlerCacheStep ttlMs (some z) (some c) nowMs false fresh).2 = some c := by
  have hhit : isCacheHit ttlMs (some c) nowMs false = true := by
    unfold isCacheHit
    dsimp only
    rw [decide_eq_true httl, decide_eq_true hage]
    rfl
  unfold handlerCacheStep
  rw [if_pos hhit]
  unfold servedOnHit
  exact ⟨rfl, rfl, rfl, rfl, rfl, rfl, rfl, rfl, rfl, rfl⟩

/-- Witness for `handlerCacheStep_hit_spec` at a concrete input. -/
theorem handlerCacheStep_hit_spec_witness :
    (handlerCacheStep 45000 (some 0)
        (some ⟨0, buildResponse 1 0 "g" [] 0 0 0 0 0 0⟩) 1000 false
        (buildResponse 2 0 "h" [] 1 0 0 1 0 0)).1.items =
      (buildResponse 1 0 "g" [] 0 0 0 0 0 0).items ∧
    (handlerCacheStep 45000 (some 0)
        (some ⟨0, buildResponse 1 0 "g" [] 0 0 0 0 0 0⟩) 1000 false
        (buildResponse 2 0 "h" [] 1 0 0 1 0 0)).2 =
      some ⟨0, buildResponse 1 0 "g" [] 0 0 0 0 0 0⟩ := by
  have h := handlerCacheStep_hit_spec 45000 0 ⟨0, buildResponse 1 0 "g" [] 0 0 0 0 0 0⟩
    1000 (buildResponse 2 0 "h" [] 1 0 0 1 0 0) (by norm_num) (by norm_num)
  exact ⟨h.1, h.2.2.2.2.2.2.2.2.2⟩

/-- C10: a `force` query parameter with any value sets the force flag; the
flag ignores parameter values entirely; and with the flag set there is never
a cache hit — the freshly computed payload is always served. -/
theorem forceFlag_spec (q : List (String × String)) (v : String)
    (hmem : ("force", v) ∈ q) :
    forceFlag q = true ∧
    (∀ f : String → String,
       forceFlag (q.map fun kv => (kv.1, f kv.2)) = forceFlag q) ∧
    (∀ (ttlMs : ℤ) (cache : Option CacheSlot) (nowMs : ℤ),
       isCacheHit ttlMs cache nowMs (forceFlag q) = false) ∧
    (∀ (ttlMs : ℤ) (tz : Option ℤ) (cache : Option CacheSlot) (nowMs : ℤ)
       (fresh : SignalResponse),
       (handlerCacheStep ttlMs tz cache nowMs (forceFlag q) fresh).1 = fresh) := by
  have hforce : forceFlag q = true := by
    unfold forceFlag
    rw [List.any_eq_true]
    exact ⟨("force", v), hmem, by rfl⟩
  have hnohit : ∀ (ttlMs : ℤ) (cache : Option CacheSlot) (nowMs : ℤ),
      isCacheHit ttlMs cache nowMs (forceFlag q) = false := by
    intro ttlMs cache nowMs
    unfold isCacheHit
    rw [hforce]
    cases cache <;> simp
  refine ⟨hforce, ?_, hnohit, ?_⟩
  · intro f
    unfold forceFlag
    rw [List.any_map]
    rfl
  · intro ttlMs tz cache nowMs fresh
    unfold handlerCacheStep
    rw [hnohit ttlMs cache nowMs]
    rfl

/-- Witness for `forceFlag_spec` at a concrete input. -/
theorem forceFlag_spec_witness :
    forceFlag [("force", "0")] = true ∧
    (handlerCacheStep 45000 (some 0)
        (some ⟨0, buildResponse 1 0 "g" [] 0 0 0 0 0 0⟩) 1000
        (forceFlag [("force", "0")])
        (buildResponse 2 0 "h" [] 1 0 0 1 0 0)).1 =
      buildResponse 2 0 "h" [] 1 0 0 1 0 0 := by
  have h := forceFlag_spec [("force", "0")] "0" (List.mem_singleton.mpr rfl)
  exact ⟨h.1, h.2.2.2 45000 (some 0)
    (some ⟨0, buildResponse 1 0 "g" [] 0 0 0 0 0 0⟩) 1000
    (buildResponse 2 0 "h" [] 1 0 0 1 0 0)⟩

/-! Lemmas for link normalisation. -/

theorem splitOnFirstChar_not_mem (c : Char) (l : List Char) :
    c ∉ (splitOnFirstChar c l).1 := by
  induction l with
  | nil => simp [splitOnFirstChar]
  | cons a rest ih =>
    unfold splitOnFirstChar
    by_cases h : a = c
    · rw [if_pos h]
      simp
    · rw [if_neg h]
      dsimp only
      intro hmem
      rcases List.mem_cons.mp hmem with h1 | h1
      · exact h h1.symm
      · exact ih h1

theorem splitOnFirstChar_recover (c : Char) (l : List Char) :
    (splitOnFirstChar c l).1 ++
      (match (splitOnFirstChar c l).2 with
       | none => []
       | some p => c :: p) = l := by
  induction l with
  | nil => rfl
  | cons a rest ih =>
    unfold splitOnFirstChar
    by_cases h : a = c
    · rw [if_pos h]
      dsimp only
      rw [h]
      rfl
    · rw [if_neg h]
      dsimp only
      rw [List.cons_append, ih]

theorem splitOnFirstChar_of_not_mem (c : Char) (l : List Char) (h : c ∉ l) :
    splitOnFirstChar c l = (l, none) := by
  induction l with
  | nil => rfl
  | cons a rest ih =>
    have hac : ¬ a = c := fun hc => h (List.mem_cons.mpr (Or.inl hc.symm))
    unfold splitOnFirstChar
    rw [if_neg hac]
    dsimp only
    rw [ih (fun hc => h (List.mem_cons_of_mem a hc))]

theorem splitOnFirstChar_append (c : Char) (l₁ l₂ : List Char) (h : c ∉ l₁) :
    splitOnFirstChar c (l₁ ++ c :: l₂) = (l₁, some l₂) := by
  induction l₁ with
  | nil =>
    rw [List.nil_append]
    unfold splitOnFirstChar
    rw [if_pos rfl]
  | cons a rest ih =>
    have hac : ¬ a = c := fun hc => h (List.mem_cons.mpr (Or.inl hc.symm))
    rw [List.cons_append]
    unfold splitOnFirstChar
    rw [if_neg hac]
    dsimp only
    rw [ih (fun hc => h (List.mem_cons_of_mem a hc))]

theorem mem_of_mem_splitFst {a c : Char} {l : List Char}
    (h : a ∈ (splitOnFirstChar c l).1) : a ∈ l := by
  have hr := splitOnFirstChar_recover c l
  rw [← hr]
  exact List.mem_append_left _ h

theorem mem_of_mem_splitSnd {a c : Char} {l p : List Char}
    (h2 : (splitOnFirstChar c l).2 = some p) (h : a ∈ p) : a ∈ l := by
  have hr := splitOnFirstChar_recover c l
  rw [h2] at hr
  rw [← hr]
  exact List.mem_append_right _ (List.mem_cons_of_mem _ h)

theorem splitAllChar_ne_nil (c : Char) (l : List Char) : splitAllChar c l ≠ [] := by
  induction l with
  | nil => simp [splitAllChar]
  | cons a rest ih =>
    unfold splitAllChar
    by_cases h : a = c
    · rw [if_pos h]
      simp
    · rw [if_neg h]
      cases hs : splitAllChar c rest with
      | nil => simp
      | cons s ss => simp

theorem splitAllChar_sound (c : Char) (l : List Char) :
    ∀ s ∈ splitAllChar c l, ∀ a ∈ s, a ∈ l ∧ a ≠ c := by
  induction l with
  | nil =>
    intro s hs a ha
    simp [splitAllChar] at hs
    subst hs
    cases ha
  | cons b rest ih =>
    intro s hs a ha
    unfold splitAllChar at hs
    by_cases h : b = c
    · rw [if_pos h] at hs
      rcases List.mem_cons.mp hs with h1 | h1
      · subst h1
        cases ha
      · have := ih s h1 a ha
        exact ⟨List.mem_cons_of_mem b this.1, this.2⟩
    · rw [if_neg h] at hs
      cases hrest : splitAllChar c rest with
      | nil => exact absurd hrest (splitAllChar_ne_nil c rest)
      | cons s0 ss =>
        rw [hrest] at hs
        rcases List.mem_cons.mp hs with h1 | h1
        · subst h1
          rcases List.mem_cons.mp ha with h2 | h2
          · subst h2
            exact ⟨List.mem_cons_self a rest, h⟩
          · have := ih s0 (hrest ▸ List.mem_cons_self s0 ss) a h2
            exact ⟨List.mem_cons_of_mem b this.1, this.2⟩
        · have := ih s (hrest ▸ List.mem_cons_of_mem s0 h1) a ha
          exact ⟨List.mem_cons_of_mem b this.1, this.2⟩

theorem splitAllChar_of_not_mem (c : Char) (l : List Char) (h : c ∉ l) :
    splitAllChar c l = [l] := by
  induction l with
  | nil => rfl
  | cons a rest ih =>
    have hac : ¬ a = c := fun hc => h (List.mem_cons.mpr (Or.inl hc.symm))
    unfold splitAllChar
    rw [if_neg hac, ih (fun hc => h (List.mem_cons_of_mem a hc))]

theorem splitAllChar_append (c : Char) (s t : List Char) (h : c ∉ s) :
    splitAllChar c (s ++ c :: t) = s :: splitAllChar c t := by
  induction s with
  | nil =>
    show splitAllChar c (c :: t) = [] :: splitAllChar c t
    conv_lhs => rw [splitAllChar]
    rw [if_pos rfl]
  | cons a rest ih =>
    have hac : ¬ a = c := fun hc => h (List.mem_cons.mpr (Or.inl hc.symm))
    rw [List.cons_append]
    conv_lhs => rw [splitAllChar]
    rw [if_neg hac, ih (fun hc => h (List.mem_cons_of_mem a hc))]

theorem splitAllChar_joinSep (c : Char) (segs : List (List Char)) (hne : segs ≠ [])
    (h : ∀ s ∈ segs, c ∉ s) : splitAllChar c (joinSep c segs) = segs := by
  induction segs with
  | nil => exact absurd rfl hne
  | cons s rest ih =>
    cases rest with
    | nil =>
      show splitAllChar c (joinSep c [s]) = [s]
      exact splitAllChar_of_not_mem c s (h s (List.mem_cons_self s []))
    | cons s2 r2 =>
      show splitAllChar c (s ++ c :: joinSep c (s2 :: r2)) = s :: s2 :: r2
      rw [splitAllChar_append c s _ (h s (List.mem_cons_self s _)),
        ih (by simp) (fun x hx => h x (List.mem_cons_of_mem s hx))]

theorem mem_joinSep {a : Char} {c : Char} {segs : List (List Char)}
    (h : a ∈ joinSep c segs) : a = c ∨ ∃ s ∈ segs, a ∈ s := by
  induction segs with
  | nil => cases h
  | cons s rest ih =>
    cases rest with
    | nil =>
      exact Or.inr ⟨s, List.mem_cons_self s [], h⟩
    | cons s2 r2 =>
      rw [show joinSep c (s :: s2 :: r2) = s ++ c :: joinSep c (s2 :: r2) from rfl] at h
      rcases List.mem_append.mp h with h1 | h1
      · exact Or.inr ⟨s, List.mem_cons_self s _, h1⟩
      · rcases List.mem_cons.mp h1 with h2 | h2
        · exact Or.inl h2
        · rcases ih h2 with h3 | ⟨s', hs', ha⟩
          · exact Or.inl h3
          · exact Or.inr ⟨s', List.mem_cons_of_mem s hs', ha⟩

theorem parsePair_renderPair (k v : List Char) (h : ('=' : Char) ∉ k) :
    parsePair (renderPair (k, v)) = (k, v) := by
  unfold parsePair renderPair
  rw [splitOnFirstChar_append _ _ _ h]
  rfl

theorem renderPair_ne_nil (kv : List Char × List Char) : renderPair kv ≠ [] := by
  unfold renderPair
  simp

theorem mem_renderPair {a : Char} {kv : List Char × List Char}
    (h : a ∈ renderPair kv) : a ∈ kv.1 ∨ a = '=' ∨ a ∈ kv.2 := by
  unfold renderPair at h
  rcases List.mem_append.mp h with h1 | h1
  · exact Or.inl h1
  · rcases List.mem_cons.mp h1 with h2 | h2
    · exact Or.inr (Or.inl h2)
    · exact Or.inr (Or.inr h2)

theorem mem_renderQuery {a : Char} {pairs : List (List Char × List Char)}
    (h : a ∈ renderQuery pairs) :
    a = '&' ∨ ∃ kv ∈ pairs, (a ∈ kv.1 ∨ a = '=' ∨ a ∈ kv.2) := by
  unfold renderQuery at h
  rcases mem_joinSep h with h1 | ⟨s, hs, ha⟩
  · exact Or.inl h1
  · rcases List.mem_map.mp hs with ⟨kv, hkv, hrender⟩
    exact Or.inr ⟨kv, hkv, mem_renderPair (hrender ▸ ha)⟩

theorem parseQuery_wf (q : List Char) :
    ∀ kv ∈ parseQuery q, ('&' : Char) ∉ kv.1 ∧ ('&' : Char) ∉ kv.2 ∧
      ('=' : Char) ∉ kv.1 ∧ (∀ a ∈ kv.1, a ∈ q) ∧ (∀ a ∈ kv.2, a ∈ q) := by
  intro kv hkv
  unfold parseQuery at hkv
  rcases List.mem_filterMap.mp hkv with ⟨seg, hseg, hf⟩
  by_cases hseg0 : seg = []
  · rw [if_pos hseg0] at hf
    cases hf
  · rw [if_neg hseg0] at hf
    injection hf with hf
    subst hf
    have hsound := splitAllChar_sound '&' q seg hseg
    unfold parsePair
    refine ⟨?_, ?_, ?_, ?_, ?_⟩
    · intro hmem
      exact (hsound '&' (mem_of_mem_splitFst hmem)).2 rfl
    · dsimp only
      cases hsnd : (splitOnFirstChar '=' seg).2 with
      | none => simp
      | some p =>
        intro hmem
        exact (hsound '&' (mem_of_mem_splitSnd hsnd hmem)).2 rfl
    · exact splitOnFirstChar_not_mem '=' seg
    · intro a ha
      exact (hsound a (mem_of_mem_splitFst ha)).1
    · dsimp only
      cases hsnd : (splitOnFirstChar '=' seg).2 with
      | none => simp
      | some p =>
        intro a ha
        exact (hsound a (mem_of_mem_splitSnd hsnd ha)).1

theorem filterMap_parse_render (pairs : List (List Char × List Char))
    (h : ∀ kv ∈ pairs, ('=' : Char) ∉ kv.1) :
    List.filterMap
      (fun kv => if renderPair kv = [] then none else some (parsePair (renderPair kv)))
      pairs = pairs := by
  induction pairs with
  | nil => rfl
  | cons kv rest ih =>
    rw [List.filterMap_cons]
    rw [if_neg (renderPair_ne_nil kv)]
    rw [parsePair_renderPair kv.1 kv.2 (h kv (List.mem_cons_self kv rest))]
    rw [ih (fun x hx => h x (List.mem_cons_of_mem kv hx))]

theorem parseQuery_renderQuery (pairs : List (List Char × List Char))
    (h : ∀ kv ∈ pairs, ('&' : Char) ∉ kv.1 ∧ ('&' : Char) ∉ kv.2 ∧ ('=' : Char) ∉ kv.1) :
    parseQuery (renderQuery pairs) = pairs := by
  cases hp : pairs with
  | nil => rfl
  | cons kv rest =>
    subst hp
    unfold parseQuery renderQuery
    rw [splitAllChar_joinSep '&' _ (by simp) ?_]
    · rw [List.filterMap_map]
      exact filterMap_parse_render _ (fun x hx => (h x hx).2.2)
    · intro s hs
      rcases List.mem_map.mp hs with ⟨x, hx, hrender⟩
      intro hmem
      rcases mem_renderPair (hrender ▸ hmem) with h1 | h1 | h1
      · exact (h x hx).1 h1
      · cases h1
      · exact (h x hx).2.1 h1

theorem parseURLChars_wf {l : List Char} {p : ParsedURL}
    (h : parseURLChars l = some p) :
    ('#' : Char) ∉ p.base ∧ ('?' : Char) ∉ p.base ∧ hasScheme p.base = true ∧
    (∀ kv ∈ p.query, ('#' : Char) ∉ kv.1 ∧ ('#' : Char) ∉ kv.2 ∧
      ('&' : Char) ∉ kv.1 ∧ ('&' : Char) ∉ kv.2 ∧ ('=' : Char) ∉ kv.1) := by
  unfold parseURLChars at h
  dsimp only at h
  by_cases hs :
      hasScheme (splitOnFirstChar '?' (splitOnFirstChar '#' l).1).1 = true
  · rw [if_pos hs] at h
    injection h with h
    subst h
    dsimp only
    have hnohash : ∀ a ∈ (splitOnFirstChar '#' l).1, a ≠ '#' := by
      intro a ha hq
      subst hq
      exact splitOnFirstChar_not_mem '#' l ha
    refine ⟨?_, splitOnFirstChar_not_mem '?' _, hs, ?_⟩
    · intro hmem
      exact hnohash '#' (mem_of_mem_splitFst hmem) rfl
    · intro kv hkv
      have hwf := parseQuery_wf _ kv hkv
      have hsubq : ∀ a, a ∈ (splitOnFirstChar '?' (splitOnFirstChar '#' l).1).2.getD [] →
          a ∈ (splitOnFirstChar '#' l).1 := by
        intro a ha
        cases hsnd : (splitOnFirstChar '?' (splitOnFirstChar '#' l).1).2 with
        | none =>
          rw [hsnd] at ha
          cases ha
        | some tl =>
          rw [hsnd] at ha
          exact mem_of_mem_splitSnd hsnd ha
      refine ⟨?_, ?_, hwf.1, hwf.2.1, hwf.2.2.1⟩
      · intro hmem
        exact hnohash '#' (hsubq '#' (hwf.2.2.2.1 '#' hmem)) rfl
      · intro hmem
        exact hnohash '#' (hsubq '#' (hwf.2.2.2.2 '#' hmem)) rfl
  · rw [if_neg hs] at h
    cases h

theorem parseURLChars_render (base : List Char)
    (query : List (List Char × List Char))
    (hb1 : ('#' : Char) ∉ base) (hb2 : ('?' : Char) ∉ base)
    (hs : hasScheme base = true)
    (hq : ∀ kv ∈ query, ('#' : Char) ∉ kv.1 ∧ ('#' : Char) ∉ kv.2 ∧
      ('&' : Char) ∉ kv.1 ∧ ('&' : Char) ∉ kv.2 ∧ ('=' : Char) ∉ kv.1) :
    parseURLChars (renderURLChars ⟨base, query, []⟩) = some ⟨base, query, []⟩ := by
  have hrender : renderURLChars ⟨base, query, []⟩ =
      base ++ (if query = [] then [] else '?' :: renderQuery query) := by
    unfold renderURLChars
    dsimp only
    rw [if_pos rfl, List.append_nil]
  have hnohash : ('#' : Char) ∉ renderURLChars ⟨base, query, []⟩ := by
    rw [hrender]
    intro hmem
    rcases List.mem_append.mp hmem with h1 | h1
    · exact hb1 h1
    · by_cases hqe : query = []
      · rw [if_pos hqe] at h1
        cases h1
      · rw [if_neg hqe] at h1
        rcases List.mem_cons.mp h1 with h2 | h2
        · exact absurd h2 (by decide)
        · rcases mem_renderQuery h2 with h3 | ⟨kv, hkv, hin⟩
          · exact absurd h3 (by decide)
          · rcases hin with h4 | h4 | h4
            · exact (hq kv hkv).1 h4
            · exact absurd h4 (by decide)
            · exact (hq kv hkv).2.1 h4
  unfold parseURLChars
  rw [splitOnFirstChar_of_not_mem '#' _ hnohash]
  dsimp only
  rw [hrender]
  by_cases hqe : query = []
  · rw [if_pos hqe, List.append_nil, splitOnFirstChar_of_not_mem '?' _ hb2]
    dsimp only
    rw [if_pos hs, hqe]
    rfl
  · rw [if_neg hqe, splitOnFirstChar_append '?' base _ hb2]
    dsimp only
    rw [if_pos hs, Option.getD_some, Option.getD_none,
      parseQuery_renderQuery query
        (fun kv hkv => ⟨(hq kv hkv).2.2.1, (hq kv hkv).2.2.2.1, (hq kv hkv).2.2.2.2⟩)]

theorem normalizeLink_of_parse_none {u : String} (h : parseURLChars u.data = none) :
    normalizeLink u = u := by
  unfold normalizeLink
  rw [h]

theorem normalizeLink_of_parse_some {u : String} {p : ParsedURL}
    (h : parseURLChars u.data = some p) :
    normalizeLink u =
      String.mk (renderURLChars
        ⟨p.base, p.query.filter (fun kv => !(isUtmKey kv.1)), []⟩) := by
  unfold normalizeLink
  rw [h]

theorem parse_normalizeLink {u : String} {p : ParsedURL}
    (h : parseURLChars u.data = some p) :
    parseURLChars (normalizeLink u).data =
      some ⟨p.base, p.query.filter (fun kv => !(isUtmKey kv.1)), []⟩ := by
  rw [normalizeLink_of_parse_some h]
  have hwf := parseURLChars_wf h
  show parseURLChars (renderURLChars
    ⟨p.base, p.query.filter (fun kv => !(isUtmKey kv.1)), []⟩) = _
  exact parseURLChars_render p.base _ hwf.1 hwf.2.1 hwf.2.2.1
    (fun kv hkv => hwf.2.2.2 kv (List.mem_filter.mp hkv).1)

/-- C5: `normalizeLink` leaves strings that do not parse as URLs unchanged;
on a parsed URL it removes exactly the query parameters whose name starts
with `utm_` case-insensitively, keeps all other parameters in their
original order, and drops the fragment (the result reparses to the filtered
parameter list and an empty fragment); and it is idempotent. -/
theorem normalizeLink_spec (u : String) :
    (parseURLChars u.data = none → normalizeLink u = u) ∧
    (∀ p : ParsedURL, parseURLChars u.data = some p →
       parseURLChars (normalizeLink u).data =
         some ⟨p.base, p.query.filter (fun kv => !(isUtmKey kv.1)), []⟩) ∧
    normalizeLink (normalizeLink u) = normalizeLink u := by
  refine ⟨fun h => normalizeLink_of_parse_none h, fun p h => parse_normalizeLink h, ?_⟩
  cases hp : parseURLChars u.data with
  | none =>
    rw [normalizeLink_of_parse_none hp, normalizeLink_of_parse_none hp]
  | some p =>
    have h1 := parse_normalizeLink hp
    rw [normalizeLink_of_parse_some h1, normalizeLink_of_parse_some hp]
    dsimp only
    rw [List.filter_filter]
    simp only [Bool.and_self]

/-- Witness for `normalizeLink_spec` at concrete inputs. -/
theorem normalizeLink_spec_witness :
    normalizeLink "not a url" = "not a url" ∧
    parseURLChars (normalizeLink "https://a.com/p?utm_source=x&b=2#f").data =
      some ⟨"https://a.com/p".data, [("b".data, "2".data)], []⟩ := by
  constructor
  · exact (normalizeLink_spec "not a url").1 (by decide)
  · have h := (normalizeLink_spec "https://a.com/p?utm_source=x&b=2#f").2.1
      ⟨"https://a.com/p".data, [("utm_source".data, "x".data), ("b".data, "2".data)],
        "f".data⟩ (by decide)
    rw [h]
    decide

end Signal
